import Mathlib

/-!
Verification of the multi-word anagram solver (`src/lib.rs`).

Shallow embedding conventions:
* Rust `&str` / `String` values are modelled as `List Char` (the inputs are
  ASCII, so byte indexing and `char` indexing agree).
* The `[u8; 26]` letter-frequency array is modelled as a function
  `Nat → Nat` whose increments are taken mod 256, mirroring the wrapping
  behaviour of the `u8` counters (`freq[i] += 1`).  `spec_letter_count` is the
  spec-side unbounded counter used to compare against it.
* The embedded dictionary (`include_str!("../dict.txt")`, a file outside the
  verified sources) is an external word source per the spec, so `solve` takes
  the raw dictionary lines as a parameter.
* The recursive search `find_anagrams_recursive` is embedded as `farEntry`
  (one call frame: leaf check, cap check, minimum-word-length computation)
  and `farLoop` (the `for i in start_idx..len` loop, taking the recursive
  call as the `recur` parameter).  `farEntry` is structural on a fuel
  argument; the top-level call supplies `target_len + 1` fuel, which bounds
  the recursion depth of the Rust program whenever every candidate word has
  at least one letter (exactly the situations in which the Rust recursion
  terminates at all).
* `HashSet<String>` values are modelled as lists with membership testing;
  only membership is observable in the program.
* Rust's `sort_by` is a stable sort; a stable sort's output is uniquely
  determined by the comparison preorder and the input order, so it is
  modelled by `List.insertionSort` (structurally recursive and stable),
  which produces the same list as the Rust merge sort.
-/

namespace Anagram

/-- Words and phrases (`String` in the Rust code) as character lists. -/
abbrev Word := List Char

/-- The `[u8; 26]` frequency array, as a function from letter index to count. -/
abbrev Freq := Nat → Nat

/-- `u8::is_ascii_alphabetic`. -/
def isAsciiAlphabetic (c : Char) : Bool :=
  (65 ≤ c.toNat && c.toNat ≤ 90) || (97 ≤ c.toNat && c.toNat ≤ 122)

/-- `u8::to_ascii_lowercase` on a byte value. -/
def toLowerByte (n : Nat) : Nat := if 65 ≤ n ∧ n ≤ 90 then n + 32 else n

/-- `char::to_lowercase` restricted to the ASCII range used here. -/
def asciiToLower (c : Char) : Char :=
  if 65 ≤ c.toNat ∧ c.toNat ≤ 90 then Char.ofNat (c.toNat + 32) else c

/-- `char::is_whitespace` on the ASCII range (the inputs considered here). -/
def isRustWhitespace (c : Char) : Bool :=
  c.toNat = 32 || (9 ≤ c.toNat && c.toNat ≤ 13)

/-- `str::trim`: strip leading and trailing whitespace. -/
def trimRust (s : Word) : Word :=
  ((s.dropWhile isRustWhitespace).reverse.dropWhile isRustWhitespace).reverse

/-- Index of a letter in the frequency array: `(b.to_ascii_lowercase() - b'a')`. -/
def letterIdx (c : Char) : Nat := toLowerByte c.toNat - 97

/-- Loop body of `compute_frequency`: `freq[idx] += 1` on a `u8` counter
(wrapping mod 256), guarded by `is_ascii_alphabetic`. -/
def wrapStep (f : Freq) (c : Char) : Freq :=
  if isAsciiAlphabetic c then
    fun j => if j = letterIdx c then (f j + 1) % 256 else f j
  else f

/-- `compute_frequency`: count ASCII alphabetic characters case-insensitively.
The counters are `u8`, so each increment wraps mod 256. -/
def compute_frequency (s : Word) : Freq :=
  s.foldl wrapStep (fun _ => 0)

/-- The same increment with an unbounded (ℕ) counter. -/
def specStep (f : Freq) (c : Char) : Freq :=
  if isAsciiAlphabetic c then
    fun j => if j = letterIdx c then f j + 1 else f j
  else f

/-- Spec-side letter counter: the letter count with unbounded counters.
Modelled from the spec's `fromText` operation ("fixed array of 26
non-negative integer counts"), for comparison with the `u8` implementation. -/
def spec_letter_count (s : Word) : Freq :=
  s.foldl specStep (fun _ => 0)

/-- `can_use_word`: every needed letter count is at most the available one. -/
def can_use_word (word_freq available : Freq) : Bool :=
  (List.range 26).all fun i => word_freq i ≤ available i

/-- `subtract_letters`: pointwise subtraction of the 26 counters. -/
def subtract_letters (available word_freq : Freq) : Freq :=
  fun i => if i < 26 then available i - word_freq i else available i

/-- `count_remaining`: sum of the 26 counters. -/
def count_remaining (freq : Freq) : Nat :=
  ((List.range 26).map freq).sum

/-- `calculate_quality_score`. -/
def calculate_quality_score (words : List Word) : Int :=
  let num_words := words.length
  let total_len := (words.map List.length).sum
  let avg_word_len := if 0 < num_words then total_len / num_words else 0
  let word_count_penalty : Int := (num_words : Int) * 1000
  let length_bonus : Int := (avg_word_len : Int) * 100
  let variance_penalty : Int :=
    if 1 < num_words then
      ((words.map fun w => ((w.length : Int) - (avg_word_len : Int)).natAbs).sum : Int) * 5
    else 0
  length_bonus - word_count_penalty - variance_penalty

/-- Byte-lexicographic `≤` on strings (Rust's `Ord` on `str`). -/
def lexLe : Word → Word → Bool
  | [], _ => true
  | _ :: _, [] => false
  | a :: as_, b :: bs =>
    if a.toNat < b.toNat then true
    else if b.toNat < a.toNat then false
    else lexLe as_ bs

/-- `Vec::join("|")`. -/
def joinPipe : List Word → Word
  | [] => []
  | [w] => w
  | w :: ws => w ++ '|' :: joinPipe ws

/-- `Vec::join(" ")`. -/
def joinWords : List Word → Word
  | [] => []
  | [w] => w
  | w :: ws => w ++ ' ' :: joinWords ws

/-- `create_signature`: sorted pipe-joined list of the words of length ≥ 4. -/
def create_signature (words : List Word) : Word :=
  joinPipe (List.insertionSort (fun a b => lexLe a b = true)
    (words.filter fun w => 4 ≤ w.length))

/-- `HashSet::insert` (observable content only). -/
def insertSeen (sig : Word) (seen : List Word) : List Word :=
  if sig ∈ seen then seen else sig :: seen

/-- `would_be_redundant`. -/
def would_be_redundant (current : List Word) (new_word : Word) (seen : List Word) : Bool :=
  let sig := create_signature (current ++ [new_word])
  if sig.isEmpty then false else decide (sig ∈ seen)

/-- One entry of the candidate table: `(word, word_freq, word_len)`. -/
abbrev Entry := Word × Freq × Nat

/-- Placeholder entry for out-of-range indexing (never hit by the program:
the loop only produces in-range indices). -/
def dfltEntry : Entry := ([], fun _ => 0, 0)

/-- The recorded solutions `Vec<(i32, Vec<String>)>`. -/
abbrev SResult := List (Int × List Word)

/-- The dynamic minimum word length computed at each call of
`find_anagrams_recursive` from the depth and the remaining letter count. -/
def minWordLen (depth remaining : Nat) : Nat :=
  if depth = 0 then 1
  else if depth = 1 then min (max (remaining * 4 / 10) 2) remaining
  else if depth = 2 then min (max (remaining * 5 / 10) 3) remaining
  else min (max (remaining * 6 / 10) 3) remaining

/-- The `for i in start_idx..dict_words.len()` loop of
`find_anagrams_recursive`.  `recur` is the recursive call (one frame
deeper); the loop threads `(results, seen_signatures)` and walks the list
of remaining indices.  Returning without a tail call models `break` /
`return`. -/
def farLoop
    (recur : Freq → List Word → SResult → List Word → Nat → Nat → SResult × List Word)
    (dict : List Entry) (avail : Freq) (current : List Word)
    (minLen remaining maxR : Nat) :
    SResult → List Word → List Nat → SResult × List Word
  | res, seen, [] => (res, seen)
  | res, seen, i :: rest =>
    let e := dict.getD i dfltEntry
    if remaining < e.2.2 then
      farLoop recur dict avail current minLen remaining maxR res seen rest
    else if e.2.2 < minLen ∧ maxR / 10 < res.length ∧ 5 < remaining then
      (res, seen)
    else if can_use_word e.2.1 avail = false then
      farLoop recur dict avail current minLen remaining maxR res seen rest
    else if would_be_redundant current e.1 seen = true then
      farLoop recur dict avail current minLen remaining maxR res seen rest
    else
      let out := recur (subtract_letters avail e.2.1) (current ++ [e.1]) res seen i
        (remaining - e.2.2)
      if maxR ≤ out.1.length then out
      else farLoop recur dict avail current minLen remaining maxR out.1 out.2 rest

/-- One call frame of `find_anagrams_recursive`: leaf check (letters
exhausted: record the solution and its signature), result-cap check, then
the candidate loop from `start_idx`.  Structural on the fuel argument;
exhausted fuel returns the state unchanged. -/
def farEntry (dict : List Entry) (maxR : Nat) :
    Nat → Freq → List Word → SResult → List Word → Nat → Nat → SResult × List Word
  | 0, _, _, res, seen, _, _ => (res, seen)
  | fuel + 1, avail, current, res, seen, start, remaining =>
    if remaining = 0 then
      let sig := create_signature current
      (res ++ [(calculate_quality_score current, current)],
       if sig.isEmpty then seen else insertSeen sig seen)
    else if maxR ≤ res.length then (res, seen)
    else
      farLoop (farEntry dict maxR fuel) dict avail current
        (minWordLen current.length remaining) remaining maxR res seen
        (List.range' start (dict.length - start))

/-- The two error values returned by `solve_anagrams`. -/
inductive SolveError where
  | EmptyInput
  | DictionaryEmpty
  deriving DecidableEq

/-- Dictionary parsing in `solve_anagrams`: trim and lowercase each raw
line, keep the nonempty all-alphabetic ones. -/
def parsedDictionary (dictLines : List Word) : List Word :=
  (dictLines.map fun s => (trimRust s).map asciiToLower).filter
    fun s => !s.isEmpty && s.all isAsciiAlphabetic

/-- The candidate table built by `solve_anagrams`: annotate each parsed word
with its frequency and length, keep those that fit inside the target, and
sort by length descending (stable, as Rust's `sort_by`). -/
def dictTable (dictLines : List Word) (target : Word) : List Entry :=
  let target_freq := compute_frequency target
  let target_len := count_remaining target_freq
  (((parsedDictionary dictLines).map fun w =>
      (w, compute_frequency w, count_remaining (compute_frequency w))).filter
    fun e => decide (e.2.2 ≤ target_len) && can_use_word e.2.1 target_freq)
    |> List.insertionSort fun a b => b.2.2 ≤ a.2.2

/-- The raw recorded solutions of the search started by `solve_anagrams`
(`results` after `find_anagrams_recursive` returns). -/
def searchResults (dictLines : List Word) (target : Word) : SResult :=
  let target_freq := compute_frequency target
  let target_len := count_remaining target_freq
  (farEntry (dictTable dictLines target) 50000 (target_len + 1) target_freq
    [] [] [] 0 target_len).1

/-- The `filter_map` over sorted results with the `seen_phrases` set:
keep each phrase's first occurrence. -/
def dedupBy : List Word → List Word → List Word
  | _, [] => []
  | seen, x :: xs => if x ∈ seen then dedupBy seen xs else x :: dedupBy (x :: seen) xs

/-- `solve_anagrams`: validate the input, parse the dictionary, build the
candidate table, run the search, sort by score descending, convert to
space-joined phrases, deduplicate, and truncate to 10,000. -/
def solve (dictLines : List Word) (target : Word) : Except SolveError (List Word) :=
  if (trimRust target).isEmpty then .error .EmptyInput
  else if (parsedDictionary dictLines).isEmpty then .error .DictionaryEmpty
  else
    let sorted := List.insertionSort (fun a b => b.1 ≤ a.1) (searchResults dictLines target)
    .ok ((dedupBy [] (sorted.map fun r => joinWords r.2)).take 10000)

/-! ### Instrumented search

`farIEntry`/`farILoop` are `farEntry`/`farLoop` with ghost state: each
recorded solution additionally carries the list of candidate-table indices
it was built from, and every call of `subtract_letters` is appended to a
log together with its guard arguments.  The projection theorem
`farEntry_eq_proj` shows the instrumentation does not change the program. -/

/-- A recorded solution with its ghost index list. -/
abbrev IRec := Int × List Word × List Nat

abbrev IRes := List IRec

/-- Log of `(available, word_freq)` arguments of `subtract_letters` calls. -/
abbrev SubLog := List (Freq × Freq)

/-- Placeholder log entry for out-of-range indexing in statements. -/
def dfltCall : Freq × Freq := (fun _ => 0, fun _ => 0)

/-- The candidate loop, instrumented. -/
def farILoop
    (recur : Freq → List Word → List Nat → IRes → List Word → SubLog → Nat → Nat →
      IRes × List Word × SubLog)
    (dict : List Entry) (avail : Freq) (current : List Word) (curIdx : List Nat)
    (minLen remaining maxR : Nat) :
    IRes → List Word → SubLog → List Nat → IRes × List Word × SubLog
  | res, seen, log, [] => (res, seen, log)
  | res, seen, log, i :: rest =>
    let e := dict.getD i dfltEntry
    if remaining < e.2.2 then
      farILoop recur dict avail current curIdx minLen remaining maxR res seen log rest
    else if e.2.2 < minLen ∧ maxR / 10 < res.length ∧ 5 < remaining then
      (res, seen, log)
    else if can_use_word e.2.1 avail = false then
      farILoop recur dict avail current curIdx minLen remaining maxR res seen log rest
    else if would_be_redundant current e.1 seen = true then
      farILoop recur dict avail current curIdx minLen remaining maxR res seen log rest
    else
      let out := recur (subtract_letters avail e.2.1) (current ++ [e.1]) (curIdx ++ [i])
        res seen (log ++ [(avail, e.2.1)]) i (remaining - e.2.2)
      if maxR ≤ out.1.length then out
      else farILoop recur dict avail current curIdx minLen remaining maxR out.1 out.2.1
        out.2.2 rest

/-- One call frame, instrumented. -/
def farIEntry (dict : List Entry) (maxR : Nat) :
    Nat → Freq → List Word → List Nat → IRes → List Word → SubLog → Nat → Nat →
      IRes × List Word × SubLog
  | 0, _, _, _, res, seen, log, _, _ => (res, seen, log)
  | fuel + 1, avail, current, curIdx, res, seen, log, start, remaining =>
    if remaining = 0 then
      let sig := create_signature current
      (res ++ [(calculate_quality_score current, current, curIdx)],
       if sig.isEmpty then seen else insertSeen sig seen, log)
    else if maxR ≤ res.length then (res, seen, log)
    else
      farILoop (farIEntry dict maxR fuel) dict avail current curIdx
        (minWordLen current.length remaining) remaining maxR res seen log
        (List.range' start (dict.length - start))

/-- Drop the ghost indices from instrumented results. -/
def projRes (l : IRes) : SResult := l.map fun r => (r.1, r.2.1)

/-- The instrumented search at the same arguments as `searchResults`. -/
def searchI (dictLines : List Word) (target : Word) : IRes × List Word × SubLog :=
  let target_freq := compute_frequency target
  let target_len := count_remaining target_freq
  farIEntry (dictTable dictLines target) 50000 (target_len + 1) target_freq
    [] [] [] [] [] 0 target_len

/-! ### Concrete fixtures used by counterexamples and witnesses -/

/-- 7-word solution of a 248-letter target, with extreme length variance. -/
def cws1 : List Word := List.replicate 200 'a' :: List.replicate 6 (List.replicate 8 'a')

/-- 8-word solution of the same 248-letter target, perfectly balanced. -/
def cws2 : List Word := List.replicate 8 (List.replicate 31 'a')

/-- Dictionary under which both `cws1` and `cws2` are recorded solutions. -/
def cdict : List Word := [List.replicate 200 'a', List.replicate 31 'a', List.replicate 8 'a']

/-- The 248-letter target. -/
def ctarget : Word := List.replicate 248 'a'

/-! ### Predicates used by the verification -/

/-- Combined (computed) letter count of a list of words at index `i`. -/
def lettersSum (ws : List Word) (i : Nat) : Nat :=
  (ws.map fun w => compute_frequency w i).sum

/-- A candidate-table entry is internally consistent: its stored frequency
and length are the ones computed from its word. -/
def entryOK (e : Entry) : Prop :=
  e.2.1 = compute_frequency e.1 ∧ e.2.2 = count_remaining e.2.1

/-- All entries of a candidate table are consistent. -/
def dictOK (dict : List Entry) : Prop := ∀ e ∈ dict, entryOK e

/-- The recursion-state invariant tying the chosen words, the available
letters and the remaining count back to the target frequency. -/
def stateOK (tf avail : Freq) (current : List Word) (remaining : Nat) : Prop :=
  (∀ i, lettersSum current i + avail i = tf i) ∧
  remaining = count_remaining avail ∧
  (∀ i, 26 ≤ i → avail i = 0)

/-- A recorded solution is an exact (computed-frequency) anagram of the
target whose words all come from the candidate table. -/
def solOK (dict : List Entry) (tf : Freq) (r : Int × List Word) : Prop :=
  (∀ i, lettersSum r.2 i = tf i) ∧ ∀ w ∈ r.2, ∃ e ∈ dict, e.1 = w

/-- An instrumented record is index-consistent: its ghost index list is
non-decreasing, in bounds, and spells out exactly its word list. -/
def idxOK (dict : List Entry) (r : IRec) : Prop :=
  List.Sorted (· ≤ ·) r.2.2 ∧ (∀ j ∈ r.2.2, j < dict.length) ∧
  r.2.1 = r.2.2.map fun j => (dict.getD j dfltEntry).1

/-! ### Letter-frequency lemmas -/

theorem letterIdx_lt_26 {c : Char} (h : isAsciiAlphabetic c = true) : letterIdx c < 26 := by
  unfold isAsciiAlphabetic at h
  unfold letterIdx toLowerByte
  simp only [Bool.or_eq_true, Bool.and_eq_true, decide_eq_true_eq] at h
  rcases h with ⟨h1, h2⟩ | ⟨h1, h2⟩ <;> split <;> omega

theorem specStep_apply (f : Freq) (c : Char) (i : Nat) :
    specStep f c i = f i + (if isAsciiAlphabetic c ∧ i = letterIdx c then 1 else 0) := by
  unfold specStep
  by_cases h : isAsciiAlphabetic c
  · simp only [h, if_true]
    by_cases hi : i = letterIdx c <;> simp [hi]
  · simp [h]

theorem spec_foldl_shift (s : Word) (f : Freq) (i : Nat) :
    s.foldl specStep f i = f i + spec_letter_count s i := by
  induction s generalizing f with
  | nil => simp [spec_letter_count]
  | cons c s ih =>
    show List.foldl specStep (specStep f c) s i = _
    rw [ih (specStep f c)]
    have : spec_letter_count (c :: s) i = specStep (fun _ => 0) c i + spec_letter_count s i := by
      show List.foldl specStep (specStep (fun _ => 0) c) s i = _
      rw [ih (specStep (fun _ => 0) c)]
    rw [this, specStep_apply, specStep_apply]
    omega

theorem spec_letter_count_cons (c : Char) (s : Word) (i : Nat) :
    spec_letter_count (c :: s) i =
      (if isAsciiAlphabetic c ∧ i = letterIdx c then 1 else 0) + spec_letter_count s i := by
  show List.foldl specStep (specStep (fun _ => 0) c) s i = _
  rw [spec_foldl_shift, specStep_apply]
  simp

theorem spec_letter_count_append (u v : Word) (i : Nat) :
    spec_letter_count (u ++ v) i = spec_letter_count u i + spec_letter_count v i := by
  unfold spec_letter_count
  rw [List.foldl_append, spec_foldl_shift]
  rfl

theorem spec_letter_count_le_length (s : Word) (i : Nat) :
    spec_letter_count s i ≤ s.length := by
  induction s with
  | nil => simp [spec_letter_count]
  | cons c s ih =>
    rw [spec_letter_count_cons]
    simp only [List.length_cons]
    split <;> omega

theorem spec_letter_count_ge26 (s : Word) (i : Nat) (h : 26 ≤ i) :
    spec_letter_count s i = 0 := by
  induction s with
  | nil => rfl
  | cons c s ih =>
    rw [spec_letter_count_cons, ih]
    split
    · next hc => exact absurd (hc.2 ▸ letterIdx_lt_26 hc.1) (by omega)
    · rfl

theorem compute_frequency_mod (s : Word) (i : Nat) :
    compute_frequency s i = spec_letter_count s i % 256 := by
  suffices h : ∀ (s : Word) (f g : Freq), (∀ j, f j = g j % 256) →
      ∀ i, s.foldl wrapStep f i = (s.foldl specStep g) i % 256 by
    exact h s (fun _ => 0) (fun _ => 0) (fun j => by simp) i
  intro s
  induction s with
  | nil => intro f g h i; exact h i
  | cons c s ih =>
    intro f g h i
    refine ih (wrapStep f c) (specStep g c) (fun j => ?_) i
    unfold wrapStep specStep
    by_cases hc : isAsciiAlphabetic c <;> simp only [hc, if_true, if_false]
    · by_cases hj : j = letterIdx c <;> simp only [hj, if_true, if_false]
      · rw [h (letterIdx c), Nat.mod_add_mod]
      · exact h j
    · exact h j

theorem compute_frequency_eq_spec (s : Word) (hb : ∀ i, i < 26 → spec_letter_count s i ≤ 255) :
    ∀ i, compute_frequency s i = spec_letter_count s i := by
  intro i
  rw [compute_frequency_mod]
  by_cases h : i < 26
  · exact Nat.mod_eq_of_lt (by have := hb i h; omega)
  · rw [spec_letter_count_ge26 s i (by omega)]

theorem compute_frequency_ge26 (s : Word) (i : Nat) (h : 26 ≤ i) :
    compute_frequency s i = 0 := by
  rw [compute_frequency_mod, spec_letter_count_ge26 s i h]

/-! ### Domination, subtraction and counting lemmas -/

theorem can_use_word_iff (wf av : Freq) :
    can_use_word wf av = true ↔ ∀ i, i < 26 → wf i ≤ av i := by
  unfold can_use_word
  rw [List.all_eq_true]
  constructor
  · intro h i hi
    simpa using h i (List.mem_range.mpr hi)
  · intro h i hi
    simpa using h i (List.mem_range.mp hi)

theorem subtract_letters_apply (av wf : Freq) (i : Nat) (hi : i < 26) :
    subtract_letters av wf i = av i - wf i := by
  simp [subtract_letters, hi]

theorem subtract_letters_add_back (av wf : Freq) (h : can_use_word wf av = true)
    (i : Nat) (hi : i < 26) : subtract_letters av wf i + wf i = av i := by
  rw [subtract_letters_apply av wf i hi]
  have := (can_use_word_iff wf av).mp h i hi
  omega

theorem nat_sum_zero_mem {L : List Nat} (h : L.sum = 0) : ∀ x ∈ L, x = 0 := by
  induction L with
  | nil => intro x hx; cases hx
  | cons a L ih =>
    simp only [List.sum_cons] at h
    intro x hx
    rcases List.mem_cons.mp hx with rfl | hx
    · omega
    · exact ih (by omega) x hx

theorem count_remaining_eq_zero {f : Freq} (h : count_remaining f = 0) :
    ∀ i, i < 26 → f i = 0 := by
  intro i hi
  exact nat_sum_zero_mem h (f i) (List.mem_map.mpr ⟨i, List.mem_range.mpr hi, rfl⟩)

theorem map_sum_sub {L : List Nat} {f g : Nat → Nat} (h : ∀ i ∈ L, g i ≤ f i) :
    (L.map fun i => f i - g i).sum + (L.map g).sum = (L.map f).sum := by
  induction L with
  | nil => rfl
  | cons a L ih =>
    simp only [List.map_cons, List.sum_cons]
    have ha := h a (List.mem_cons_self a L)
    have := ih (fun i hi => h i (List.mem_cons_of_mem a hi))
    omega

theorem count_remaining_subtract (av wf : Freq) (h : can_use_word wf av = true) :
    count_remaining (subtract_letters av wf) + count_remaining wf = count_remaining av := by
  unfold count_remaining
  have hle := (can_use_word_iff wf av).mp h
  have : (List.range 26).map (subtract_letters av wf) =
      (List.range 26).map fun i => av i - wf i := by
    apply List.map_congr_left
    intro i hi
    exact subtract_letters_apply av wf i (List.mem_range.mp hi)
  rw [this]
  exact map_sum_sub (fun i hi => hle i (List.mem_range.mp hi))

theorem count_remaining_le (wf av : Freq) (h : can_use_word wf av = true) :
    count_remaining wf ≤ count_remaining av := by
  have := count_remaining_subtract av wf h
  omega

/-! ### Letters of joined phrases -/

theorem spec_letter_count_joinWords (ws : List Word) (i : Nat) :
    spec_letter_count (joinWords ws) i = (ws.map fun w => spec_letter_count w i).sum := by
  induction ws with
  | nil => rfl
  | cons w ws ih =>
    cases ws with
    | nil => simp [joinWords]
    | cons w' ws' =>
      show spec_letter_count (w ++ ' ' :: joinWords (w' :: ws')) i = _
      rw [spec_letter_count_append, spec_letter_count_cons]
      have hsp : isAsciiAlphabetic ' ' = false := by decide
      rw [ih]
      simp [hsp]

/-! ### Search invariants: exact letter accounting (for the anagram property) -/

theorem lettersSum_append (ws : List Word) (w : Word) (i : Nat) :
    lettersSum (ws ++ [w]) i = lettersSum ws i + compute_frequency w i := by
  unfold lettersSum
  simp

theorem getD_mem_of_lt {α : Type} {l : List α} {i : Nat} {d : α} (h : i < l.length) :
    l.getD i d ∈ l := by
  rw [List.getD_eq_getElem?_getD, List.getElem?_eq_getElem h]
  exact List.getElem_mem h

theorem mem_range'_lt {i start n : Nat} (h : i ∈ List.range' start n) :
    start ≤ i ∧ i < start + n :=
  List.mem_range'_1.mp h

theorem subtract_letters_ge26 (av wf : Freq) (i : Nat) (hi : ¬ i < 26) :
    subtract_letters av wf i = av i := by
  simp [subtract_letters, hi]

theorem stateOK_step {tf avail : Freq} {current : List Word} {remaining : Nat}
    (hst : stateOK tf avail current remaining) {e : Entry} (he : entryOK e)
    (hcan : can_use_word e.2.1 avail = true) (hlen : e.2.2 ≤ remaining) :
    stateOK tf (subtract_letters avail e.2.1) (current ++ [e.1]) (remaining - e.2.2) := by
  obtain ⟨hsum, hrem, h26⟩ := hst
  obtain ⟨hef, hel⟩ := he
  refine ⟨?_, ?_, ?_⟩
  · intro i
    rw [lettersSum_append, ← hef]
    by_cases hi : i < 26
    · have hback := subtract_letters_add_back avail e.2.1 hcan i hi
      have := hsum i
      omega
    · have hz : e.2.1 i = 0 := by rw [hef]; exact compute_frequency_ge26 e.1 i (by omega)
      rw [subtract_letters_ge26 avail e.2.1 i hi, hz]
      have := hsum i
      omega
  · have := count_remaining_subtract avail e.2.1 hcan
    rw [hel] at hlen ⊢
    omega
  · intro i hi
    rw [subtract_letters_ge26 avail e.2.1 i (by omega)]
    exact h26 i hi

/-- Loop part of the letter-accounting invariant, parametric in the
recursive call. -/
theorem farLoop_sol {dict : List Entry} {tf : Freq} (hdict : dictOK dict)
    {recur : Freq → List Word → SResult → List Word → Nat → Nat → SResult × List Word}
    {maxR minLen : Nat}
    (hrecur : ∀ avail current res seen start remaining,
      stateOK tf avail current remaining →
      (∀ w ∈ current, ∃ e ∈ dict, e.1 = w) →
      (∀ r ∈ res, solOK dict tf r) →
      ∀ r ∈ (recur avail current res seen start remaining).1, solOK dict tf r) :
    ∀ (idxs : List Nat) (avail : Freq) (current : List Word) (remaining : Nat)
      (res : SResult) (seen : List Word),
      stateOK tf avail current remaining →
      (∀ w ∈ current, ∃ e ∈ dict, e.1 = w) →
      (∀ r ∈ res, solOK dict tf r) →
      (∀ i ∈ idxs, i < dict.length) →
      ∀ r ∈ (farLoop recur dict avail current minLen remaining maxR res seen idxs).1,
        solOK dict tf r := by
  intro idxs
  induction idxs with
  | nil => intro avail current remaining res seen _ _ hres _; exact hres
  | cons i rest ih =>
    intro avail current remaining res seen hst hcur hres hidx
    have hi : i < dict.length := hidx i (List.mem_cons_self i rest)
    have hrest : ∀ j ∈ rest, j < dict.length := fun j hj => hidx j (List.mem_cons_of_mem i hj)
    have he : entryOK (dict.getD i dfltEntry) := hdict _ (getD_mem_of_lt hi)
    simp only [farLoop]
    split
    · exact ih avail current remaining res seen hst hcur hres hrest
    · next hlen =>
      split
      · exact hres
      · split
        · exact ih avail current remaining res seen hst hcur hres hrest
        · next hcan =>
          split
          · exact ih avail current remaining res seen hst hcur hres hrest
          · have hcan' : can_use_word (dict.getD i dfltEntry).2.1 avail = true := by
              revert hcan
              cases can_use_word (dict.getD i dfltEntry).2.1 avail <;> simp
            have hst' := stateOK_step hst he hcan' (by omega)
            have hcur' : ∀ w ∈ current ++ [(dict.getD i dfltEntry).1], ∃ e ∈ dict, e.1 = w := by
              intro w hw
              rcases List.mem_append.mp hw with hw | hw
              · exact hcur w hw
              · rcases List.mem_singleton.mp hw with rfl
                exact ⟨_, getD_mem_of_lt hi, rfl⟩
            have hout := hrecur _ _ res seen i _ hst' hcur' hres
            split
            · exact hout
            · exact ih avail current remaining _ _ hst hcur hout hrest

/-- Every solution recorded by `find_anagrams_recursive` (from a state
satisfying the invariant) is an exact computed-frequency anagram of the
target, made of candidate-table words. -/
theorem farEntry_sol {dict : List Entry} {tf : Freq} (hdict : dictOK dict) (maxR : Nat) :
    ∀ (fuel : Nat) (avail : Freq) (current : List Word) (res : SResult) (seen : List Word)
      (start remaining : Nat),
      stateOK tf avail current remaining →
      (∀ w ∈ current, ∃ e ∈ dict, e.1 = w) →
      (∀ r ∈ res, solOK dict tf r) →
      ∀ r ∈ (farEntry dict maxR fuel avail current res seen start remaining).1,
        solOK dict tf r := by
  intro fuel
  induction fuel with
  | zero => intro _ _ res _ _ _ _ _ hres; exact hres
  | succ fuel ih =>
    intro avail current res seen start remaining hst hcur hres
    simp only [farEntry]
    split
    · next hrem =>
      intro r hr
      have hr' : r ∈ res ++ [(calculate_quality_score current, current)] := hr
      rcases List.mem_append.mp hr' with hm | hm
      · exact hres r hm
      · rcases List.mem_singleton.mp hm with rfl
        obtain ⟨hsum, hremc, h26⟩ := hst
        have hav : ∀ i, avail i = 0 := by
          intro i
          by_cases hi : i < 26
          · exact count_remaining_eq_zero (by omega) i hi
          · exact h26 i (by omega)
        refine ⟨fun i => ?_, hcur⟩
        have := hsum i
        rw [hav i] at this
        simpa using this
    · split
      · exact hres
      · refine farLoop_sol hdict (fun av cur rs sn st rm => ih av cur rs sn st rm) _
          avail current remaining res seen hst hcur hres ?_
        intro j hj
        have := mem_range'_lt hj
        omega

/-! ### Search invariants: the result cap -/

/-- Loop part of the cap invariant. -/
theorem farLoop_cap
    {recur : Freq → List Word → SResult → List Word → Nat → Nat → SResult × List Word}
    {maxR : Nat} {dict : List Entry} {avail : Freq} {current : List Word} {minLen : Nat}
    (hrecur : ∀ avail current res seen start remaining, res.length < maxR →
      (recur avail current res seen start remaining).1.length ≤ maxR) :
    ∀ (idxs : List Nat) (remaining : Nat) (res : SResult) (seen : List Word),
      res.length < maxR →
      (farLoop recur dict avail current minLen remaining maxR res seen idxs).1.length ≤ maxR := by
  intro idxs
  induction idxs with
  | nil => intro _ res _ h; exact Nat.le_of_lt h
  | cons i rest ih =>
    intro remaining res seen hres
    simp only [farLoop]
    split
    · exact ih remaining res seen hres
    · split
      · exact Nat.le_of_lt hres
      · split
        · exact ih remaining res seen hres
        · split
          · exact ih remaining res seen hres
          · have hout := hrecur (subtract_letters avail (dict.getD i dfltEntry).2.1)
              (current ++ [(dict.getD i dfltEntry).1]) res seen i
              (remaining - (dict.getD i dfltEntry).2.2) hres
            split
            · exact hout
            · next hlt =>
              exact ih remaining _ _ (by omega)

/-- The recorded-solutions list never grows beyond the cap: from a state
below the cap, `find_anagrams_recursive` returns at most `maxR` solutions. -/
theorem farEntry_cap {dict : List Entry} {maxR : Nat} :
    ∀ (fuel : Nat) (avail : Freq) (current : List Word) (res : SResult) (seen : List Word)
      (start remaining : Nat), res.length < maxR →
      (farEntry dict maxR fuel avail current res seen start remaining).1.length ≤ maxR := by
  intro fuel
  induction fuel with
  | zero => intro _ _ res _ _ _ h; exact Nat.le_of_lt h
  | succ fuel ih =>
    intro avail current res seen start remaining hres
    simp only [farEntry]
    split
    · simpa using hres
    · split
      · exact Nat.le_of_lt hres
      · exact farLoop_cap (fun av cur rs sn st rm h => ih av cur rs sn st rm h) _ _ res seen hres

/-- At or above the cap, a non-leaf call returns its state unchanged. -/
theorem farEntry_at_cap {dict : List Entry} {maxR : Nat} (fuel : Nat) (avail : Freq)
    (current : List Word) (res : SResult) (seen : List Word) (start remaining : Nat)
    (hcap : maxR ≤ res.length) (hrem : remaining ≠ 0) :
    farEntry dict maxR fuel avail current res seen start remaining = (res, seen) := by
  cases fuel with
  | zero => rfl
  | succ fuel => simp [farEntry, hrem, hcap]

/-! ### Candidate-table lemmas -/

theorem mem_dictTable {dictLines : List Word} {target : Word} {e : Entry}
    (h : e ∈ dictTable dictLines target) :
    (∃ w ∈ parsedDictionary dictLines,
        e = (w, compute_frequency w, count_remaining (compute_frequency w))) ∧
    e.2.2 ≤ count_remaining (compute_frequency target) ∧
    can_use_word e.2.1 (compute_frequency target) = true := by
  unfold dictTable at h
  rw [List.mem_insertionSort] at h
  have hf := List.mem_filter.mp h
  obtain ⟨hm, hcond⟩ := hf
  rw [Bool.and_eq_true, decide_eq_true_eq] at hcond
  obtain ⟨w, hw, hew⟩ := List.mem_map.mp hm
  exact ⟨⟨w, hw, hew.symm⟩, hcond.1, hcond.2⟩

theorem dictTable_dictOK (dictLines : List Word) (target : Word) :
    dictOK (dictTable dictLines target) := by
  intro e he
  obtain ⟨⟨w, _, hew⟩, _, _⟩ := mem_dictTable he
  subst hew
  exact ⟨rfl, rfl⟩

theorem dictTable_word_mem {dictLines : List Word} {target : Word} {e : Entry}
    (h : e ∈ dictTable dictLines target) : e.1 ∈ parsedDictionary dictLines := by
  obtain ⟨⟨w, hw, hew⟩, _, _⟩ := mem_dictTable h
  subst hew
  exact hw

theorem dictTable_sorted (dictLines : List Word) (target : Word) :
    (dictTable dictLines target).Sorted fun a b : Entry => b.2.2 ≤ a.2.2 := by
  letI : IsTotal Entry fun a b : Entry => b.2.2 ≤ a.2.2 :=
    ⟨fun a b => Nat.le_total b.2.2 a.2.2⟩
  letI : IsTrans Entry fun a b : Entry => b.2.2 ≤ a.2.2 :=
    ⟨fun _ _ _ h1 h2 => Nat.le_trans h2 h1⟩
  exact List.sorted_insertionSort _ _

/-! ### Deduplication lemmas -/

theorem dedupBy_nodup : ∀ (l seen : List Word),
    (dedupBy seen l).Nodup ∧ ∀ x ∈ dedupBy seen l, x ∉ seen := by
  intro l
  induction l with
  | nil => intro seen; exact ⟨List.nodup_nil, by intro x hx; cases hx⟩
  | cons a l ih =>
    intro seen
    unfold dedupBy
    split
    · exact ih seen
    · next ha =>
      obtain ⟨hnd, hnin⟩ := ih (a :: seen)
      refine ⟨List.nodup_cons.mpr ⟨?_, hnd⟩, ?_⟩
      · intro hmem
        exact hnin a hmem (List.mem_cons_self a seen)
      · intro x hx
        rcases List.mem_cons.mp hx with rfl | hx
        · exact ha
        · intro hxs
          exact hnin x hx (List.mem_cons_of_mem a hxs)

theorem dedupBy_subset : ∀ (l seen : List Word) (x : Word), x ∈ dedupBy seen l → x ∈ l := by
  intro l
  induction l with
  | nil => intro seen x hx; cases hx
  | cons a l ih =>
    intro seen x hx
    unfold dedupBy at hx
    split at hx
    · exact List.mem_cons_of_mem a (ih seen x hx)
    · rcases List.mem_cons.mp hx with rfl | hx
      · exact List.mem_cons_self _ _
      · exact List.mem_cons_of_mem a (ih (a :: seen) x hx)

/-! ### Shape of a successful `solve` -/

theorem solve_ok_shape {dictLines : List Word} {target : Word} {phrases : List Word}
    (h : solve dictLines target = .ok phrases) :
    phrases = (dedupBy []
        ((List.insertionSort (fun a b => b.1 ≤ a.1) (searchResults dictLines target)).map
          fun r => joinWords r.2)).take 10000 := by
  unfold solve at h
  split at h
  · cases h
  · split at h
    · cases h
    · exact (Except.ok.inj h).symm

/-! ### Claim C10: 8-bit letter counters -/

set_option maxRecDepth 10000 in
/-- C10: the letter-frequency counters are 8-bit: `compute_frequency` equals
the unbounded spec-side count mod 256, hence is exact whenever every letter
occurs at most 255 times; at 256 occurrences of a letter the counter wraps
to 0 while the spec-side count is 256. -/
theorem claim_C10_u8_counters (s : Word) :
    (∀ i, compute_frequency s i = spec_letter_count s i % 256) ∧
    ((∀ i, i < 26 → spec_letter_count s i ≤ 255) →
      ∀ i, compute_frequency s i = spec_letter_count s i) ∧
    compute_frequency (List.replicate 256 'a') 0 = 0 ∧
    spec_letter_count (List.replicate 256 'a') 0 = 256 := by
  refine ⟨compute_frequency_mod s, compute_frequency_eq_spec s, ?_, ?_⟩ <;> decide

/-- Witness for C10 at a concrete in-range input, at the letter `a`. -/
theorem claim_C10_witness :
    compute_frequency ['A', 'b', '!', 'a'] 0 = spec_letter_count ['A', 'b', '!', 'a'] 0 :=
  (claim_C10_u8_counters ['A', 'b', '!', 'a']).2.1 (by decide) 0

/-! ### Claim C2: the `EmptyInput` check -/

/-- C2 (amended): `solve` fails with `EmptyInput` exactly when the trimmed
input is empty (empty or whitespace-only), for every dictionary — the check
precedes all dictionary processing.  An input with no alphabetic characters
but some non-whitespace character is NOT rejected. -/
theorem claim_C2_emptyInput_iff (dictLines : List Word) (target : Word) :
    solve dictLines target = .error .EmptyInput ↔ (trimRust target).isEmpty = true := by
  unfold solve
  cases htrim : (trimRust target).isEmpty
  · rw [if_neg (by simp [htrim])]
    constructor
    · intro h
      split at h
      · cases h
      · cases h
    · intro h
      cases h
  · rw [if_pos (by simp [htrim])]
    simp

/-- Counterexample to C2 as stated: the phrase `"123"` contains no ASCII
alphabetic character at all, yet `solve` does not fail with `EmptyInput`:
dictionary processing happens and the (vacuous) empty phrase is returned. -/
theorem claim_C2_counterexample :
    solve [['a']] ['1', '2', '3'] = .ok [[]] ∧
    solve [['a']] ['1', '2', '3'] ≠ .error .EmptyInput ∧
    (['1', '2', '3'].all fun c => !isAsciiAlphabetic c) = true := by
  refine ⟨by rfl, ?_, by decide⟩
  intro h
  rw [show solve [['a']] ['1', '2', '3'] = .ok [[]] from rfl] at h
  cases h

/-- Witness for C2 at a whitespace-only input. -/
theorem claim_C2_witness : solve [['a']] [' ', '\t'] = .error .EmptyInput :=
  (claim_C2_emptyInput_iff [['a']] [' ', '\t']).mpr (by decide)

/-! ### Claim C7: the `DictionaryEmpty` check -/

/-- C7: if the word source yields zero usable entries (after trimming,
lowercasing, and discarding empty or non-alphabetic lines), `solve` fails
with `DictionaryEmpty` (for any input that passes the emptiness check). -/
theorem claim_C7_dictionaryEmpty (dictLines : List Word) (target : Word)
    (h1 : (trimRust target).isEmpty = false) (h2 : parsedDictionary dictLines = []) :
    solve dictLines target = .error .DictionaryEmpty := by
  unfold solve
  rw [h2]
  simp [h1]

/-- Witness for C7: a dictionary whose only line is whitespace. -/
theorem claim_C7_witness : solve [[' ']] ['a'] = .error .DictionaryEmpty :=
  claim_C7_dictionaryEmpty [[' ']] ['a'] (by decide) (by rfl)

/-! ### Claim C9: the 50,000-solution cap -/

/-- C9: the recorded-solutions collection of a solve call never exceeds
50,000 entries, and a recursive call that begins at or above the cap with
letters still remaining returns its state unchanged (no further branching;
only the leaf check precedes the cap check). -/
theorem claim_C9_result_cap (dictLines : List Word) (target : Word) :
    (searchResults dictLines target).length ≤ 50000 ∧
    ∀ (dict : List Entry) (fuel : Nat) (avail : Freq) (current : List Word)
      (res : SResult) (seen : List Word) (start remaining : Nat),
      50000 ≤ res.length → remaining ≠ 0 →
      farEntry dict 50000 fuel avail current res seen start remaining = (res, seen) := by
  constructor
  · exact @farEntry_cap (dictTable dictLines target) 50000
      (count_remaining (compute_frequency target) + 1) (compute_frequency target) [] [] []
      0 (count_remaining (compute_frequency target)) (by decide)
  · intro dict fuel avail current res seen start remaining hcap hrem
    exact farEntry_at_cap fuel avail current res seen start remaining hcap hrem

/-- Witness for C9: a call at the cap with one letter remaining returns
unchanged. -/
theorem claim_C9_witness :
    farEntry [] 50000 3 (fun _ => 0) [] (List.replicate 50000 ((0 : Int), ([] : List Word)))
      [] 0 1 = (List.replicate 50000 ((0 : Int), ([] : List Word)), []) :=
  (claim_C9_result_cap [] []).2 [] 3 (fun _ => 0) [] _ [] 0 1
    (le_of_eq (List.length_replicate _ _).symm) (by omega)

/-! ### Claim C6: the candidate table -/

/-- C6: every entry of the candidate table is dominated letterwise by the
target's frequency, has total letter count at most the target's, and the
table is sorted by letter count descending. -/
theorem claim_C6_candidate_table (dictLines : List Word) (target : Word) :
    (∀ k, k < (dictTable dictLines target).length →
      (∀ i, i < 26 →
        ((dictTable dictLines target).getD k dfltEntry).2.1 i ≤ compute_frequency target i) ∧
      can_use_word ((dictTable dictLines target).getD k dfltEntry).2.1
        (compute_frequency target) = true ∧
      ((dictTable dictLines target).getD k dfltEntry).2.2 ≤
        count_remaining (compute_frequency target)) ∧
    (dictTable dictLines target).Sorted fun a b : Entry => b.2.2 ≤ a.2.2 := by
  refine ⟨fun k hk => ?_, dictTable_sorted dictLines target⟩
  obtain ⟨_, hlen, hcan⟩ := mem_dictTable (getD_mem_of_lt hk)
  exact ⟨(can_use_word_iff _ _).mp hcan, hcan, hlen⟩

/-- Witness for C6 on a concrete two-word dictionary: the first table entry
is dominated by the target and fits inside it. -/
theorem claim_C6_witness :
    can_use_word ((dictTable [['a'], ['a', 'b']] ['b', 'a']).getD 0 dfltEntry).2.1
      (compute_frequency ['b', 'a']) = true ∧
    ((dictTable [['a'], ['a', 'b']] ['b', 'a']).getD 0 dfltEntry).2.2 ≤
      count_remaining (compute_frequency ['b', 'a']) :=
  ⟨((claim_C6_candidate_table [['a'], ['a', 'b']] ['b', 'a']).1 0 (by decide)).2.1,
   ((claim_C6_candidate_table [['a'], ['a', 'b']] ['b', 'a']).1 0 (by decide)).2.2⟩

/-! ### Claim C5: deduplicated, truncated, score-sorted output -/

set_option maxHeartbeats 1000000 in
/-- C5: a successful `solve` output contains no duplicate phrase and at
most 10,000 phrases, taken (first occurrence wins) from the recorded
solutions sorted by score descending. -/
theorem claim_C5_output_dedup (dictLines : List Word) (target : Word) (phrases : List Word)
    (h : solve dictLines target = .ok phrases) :
    phrases.Nodup ∧ phrases.length ≤ 10000 ∧
    (List.insertionSort (fun a b => b.1 ≤ a.1) (searchResults dictLines target)).Sorted
      (fun a b => b.1 ≤ a.1) ∧
    phrases = (dedupBy []
        ((List.insertionSort (fun a b => b.1 ≤ a.1) (searchResults dictLines target)).map
          fun r => joinWords r.2)).take 10000 := by
  have hs := solve_ok_shape h
  refine ⟨?_, ?_, ?_, hs⟩
  · rw [hs]
    exact List.Nodup.sublist (List.take_sublist _ _) (dedupBy_nodup _ []).1
  · rw [hs]
    exact List.length_take_le _ _
  · letI : IsTotal (Int × List Word) fun a b => b.1 ≤ a.1 :=
      ⟨fun a b => Int.le_total b.1 a.1⟩
    letI : IsTrans (Int × List Word) fun a b => b.1 ≤ a.1 :=
      ⟨fun _ _ _ hab hbc => Int.le_trans hbc hab⟩
    exact List.sorted_insertionSort _ _

set_option maxHeartbeats 1000000 in
/-- Witness for C5 on the one-word dictionary. -/
theorem claim_C5_witness : ([['a']] : List Word).Nodup ∧ ([['a']] : List Word).length ≤ 10000 := by
  have h := claim_C5_output_dedup [['a']] ['a'] [['a']] (by rfl)
  exact ⟨h.1, h.2.1⟩

/-! ### Claim C3: word count versus quality score -/

set_option maxRecDepth 8000 in
set_option maxHeartbeats 4000000 in
/-- Counterexample to C3 as stated: for the 248-letter target `ctarget`
and dictionary `cdict`, the search records the 7-word solution `cws1` and
the 8-word solution `cws2` (both exact anagrams of the target), yet the
solution with strictly fewer words receives a strictly LOWER quality score:
the variance penalty of `cws1` outweighs the 1000-point word-count gap. -/
theorem claim_C3_counterexample :
    cws1.length < cws2.length ∧
    (∀ i, i < 26 → spec_letter_count (joinWords cws1) i = spec_letter_count ctarget i) ∧
    (∀ i, i < 26 → spec_letter_count (joinWords cws2) i = spec_letter_count ctarget i) ∧
    (calculate_quality_score cws1, cws1) ∈ searchResults cdict ctarget ∧
    (calculate_quality_score cws2, cws2) ∈ searchResults cdict ctarget ∧
    calculate_quality_score cws1 < calculate_quality_score cws2 := by
  have h1 : calculate_quality_score cws1 = -5135 := by decide
  have h2 : calculate_quality_score cws2 = -4900 := by decide
  have hmem : (((-5135 : Int), cws1) ∈ searchResults cdict ctarget ∧
      ((-4900 : Int), cws2) ∈ searchResults cdict ctarget) := by decide
  have hlen : cws1.length < cws2.length := by decide
  have hj1 : ∀ i, i < 26 → spec_letter_count (joinWords cws1) i = spec_letter_count ctarget i := by
    decide
  have hj2 : ∀ i, i < 26 → spec_letter_count (joinWords cws2) i = spec_letter_count ctarget i := by
    decide
  refine ⟨hlen, hj1, hj2, ?_, ?_, ?_⟩
  · rw [h1]
    exact hmem.1
  · rw [h2]
    exact hmem.2
  · rw [h1, h2]
    decide

/-- C3 (amended): a 1-word solution always receives a strictly higher
quality score than any solution with two or more words of the same total
letter length; for two multi-word solutions, strictly fewer words does not
guarantee a strictly higher score when word-length variance is extreme. -/
theorem claim_C3_one_word_outranks (w : Word) (ws : List Word)
    (h2 : 2 ≤ ws.length) (htot : (ws.map List.length).sum = w.length) :
    calculate_quality_score ws < calculate_quality_score [w] := by
  have hone : calculate_quality_score [w] = (w.length : Int) * 100 - 1000 := by
    simp [calculate_quality_score]
  rw [hone]
  simp only [calculate_quality_score]
  rw [if_pos (by omega : 0 < ws.length), if_pos (by omega : 1 < ws.length)]
  have hdiv : (ws.map List.length).sum / ws.length ≤ (ws.map List.length).sum :=
    Nat.div_le_self _ _
  omega

/-- Witness for the amended C3. -/
theorem claim_C3_witness :
    calculate_quality_score [['c', 'a'], ['t']] < calculate_quality_score [['c', 'a', 't']] :=
  claim_C3_one_word_outranks ['c', 'a', 't'] [['c', 'a'], ['t']] (by decide) (by decide)

/-! ### Claim C1: returned phrases are exact anagrams -/

/-- C1 (amended): within the `u8` counter range — every letter of the input
occurs at most 255 times and every usable dictionary word has at most 255
characters — every phrase returned by `solve` is an exact anagram of the
input: its unbounded letter multiset (spaces ignored) equals the input's. -/
theorem claim_C1_exact_anagram (dictLines : List Word) (target : Word)
    (htb : ∀ i, i < 26 → spec_letter_count target i ≤ 255)
    (hdb : ∀ w ∈ parsedDictionary dictLines, w.length ≤ 255)
    (phrases : List Word) (h : solve dictLines target = .ok phrases) :
    ∀ p ∈ phrases, ∀ i, spec_letter_count p i = spec_letter_count target i := by
  have hs := solve_ok_shape h
  intro p hp i
  rw [hs] at hp
  have hp2 := dedupBy_subset _ _ _ (List.take_subset _ _ hp)
  obtain ⟨r, hr, hpr⟩ := List.mem_map.mp hp2
  rw [List.mem_insertionSort] at hr
  have hstate : stateOK (compute_frequency target) (compute_frequency target) []
      (count_remaining (compute_frequency target)) :=
    ⟨fun j => Nat.zero_add _, rfl, fun j hj => compute_frequency_ge26 target j hj⟩
  have hsol : solOK (dictTable dictLines target) (compute_frequency target) r := by
    refine @farEntry_sol (dictTable dictLines target) (compute_frequency target)
      (dictTable_dictOK dictLines target) 50000
      (count_remaining (compute_frequency target) + 1) (compute_frequency target) [] [] []
      0 (count_remaining (compute_frequency target)) hstate ?_ ?_ r hr
    · intro w hw
      cases hw
    · intro r' hr'
      cases hr'
  obtain ⟨hsum, hwords⟩ := hsol
  subst hpr
  rw [spec_letter_count_joinWords]
  have hmapeq : (r.2.map fun w => spec_letter_count w i).sum =
      (r.2.map fun w => compute_frequency w i).sum := by
    congr 1
    apply List.map_congr_left
    intro w hw
    obtain ⟨e, he, hew⟩ := hwords w hw
    have hwp : w ∈ parsedDictionary dictLines := hew ▸ dictTable_word_mem he
    have hbl : ∀ j, j < 26 → spec_letter_count w j ≤ 255 := fun j hj =>
      le_trans (spec_letter_count_le_length w j) (hdb w hwp)
    exact (compute_frequency_eq_spec w hbl i).symm
  rw [hmapeq]
  have hls : lettersSum r.2 i = compute_frequency target i := hsum i
  rw [show (r.2.map fun w => compute_frequency w i).sum = lettersSum r.2 i from rfl, hls]
  exact compute_frequency_eq_spec target htb i

set_option maxRecDepth 8000 in
set_option maxHeartbeats 1000000 in
/-- Counterexample to C1 as stated: on a 256-letter input the `u8` counter
wraps to zero, the whole input is treated as empty, and the returned empty
phrase is not an anagram of the input. -/
theorem claim_C1_counterexample :
    solve [['a']] (List.replicate 256 'a') = .ok [[]] ∧
    spec_letter_count [] 0 = 0 ∧
    spec_letter_count (List.replicate 256 'a') 0 = 256 := by
  refine ⟨by rfl, by rfl, by decide⟩

/-- Witness for the amended C1 on the `"cat"` example: the returned phrase
`"act"` has the same letter count as the target (instantiated at the letter
`c`, index 2). -/
theorem claim_C1_witness :
    spec_letter_count ['a', 'c', 't'] 2 = spec_letter_count ['c', 'a', 't'] 2 :=
  claim_C1_exact_anagram
    [['c', 'a', 't'], ['a', 'c', 't'], ['a', 't'], ['a'], ['t']] ['c', 'a', 't']
    (by decide) (by decide) [['c', 'a', 't'], ['a', 'c', 't']] (by rfl)
    ['a', 'c', 't'] (by decide) 2

/-! ### Instrumented search: the subtraction log is always guarded -/

theorem farILoop_log
    {recurI : Freq → List Word → List Nat → IRes → List Word → SubLog → Nat → Nat →
      IRes × List Word × SubLog}
    {dict : List Entry} {maxR : Nat}
    (hrecur : ∀ avail current curIdx res seen log start remaining,
      (∀ p ∈ log, can_use_word p.2 p.1 = true) →
      ∀ p ∈ (recurI avail current curIdx res seen log start remaining).2.2,
        can_use_word p.2 p.1 = true) :
    ∀ (idxs : List Nat) (avail : Freq) (current : List Word) (curIdx : List Nat)
      (minLen remaining : Nat) (res : IRes) (seen : List Word) (log : SubLog),
      (∀ p ∈ log, can_use_word p.2 p.1 = true) →
      ∀ p ∈ (farILoop recurI dict avail current curIdx minLen remaining maxR
          res seen log idxs).2.2,
        can_use_word p.2 p.1 = true := by
  intro idxs
  induction idxs with
  | nil => intro _ _ _ _ _ _ _ log hlog; exact hlog
  | cons i rest ih =>
    intro avail current curIdx minLen remaining res seen log hlog
    simp only [farILoop]
    split
    · exact ih avail current curIdx minLen remaining res seen log hlog
    · split
      · exact hlog
      · split
        · exact ih avail current curIdx minLen remaining res seen log hlog
        · next hcan =>
          split
          · exact ih avail current curIdx minLen remaining res seen log hlog
          · have hcan' : can_use_word (dict.getD i dfltEntry).2.1 avail = true := by
              revert hcan
              cases can_use_word (dict.getD i dfltEntry).2.1 avail <;> simp
            have hlog' : ∀ p ∈ log ++ [(avail, (dict.getD i dfltEntry).2.1)],
                can_use_word p.2 p.1 = true := by
              intro p hp
              rcases List.mem_append.mp hp with hp | hp
              · exact hlog p hp
              · rcases List.mem_singleton.mp hp with rfl
                exact hcan'
            have hout := hrecur (subtract_letters avail (dict.getD i dfltEntry).2.1)
              (current ++ [(dict.getD i dfltEntry).1]) (curIdx ++ [i]) res seen
              (log ++ [(avail, (dict.getD i dfltEntry).2.1)]) i
              (remaining - (dict.getD i dfltEntry).2.2) hlog'
            split
            · exact hout
            · exact ih avail current curIdx minLen remaining _ _ _ hout

theorem farIEntry_log {dict : List Entry} {maxR : Nat} :
    ∀ (fuel : Nat) (avail : Freq) (current : List Word) (curIdx : List Nat)
      (res : IRes) (seen : List Word) (log : SubLog) (start remaining : Nat),
      (∀ p ∈ log, can_use_word p.2 p.1 = true) →
      ∀ p ∈ (farIEntry dict maxR fuel avail current curIdx res seen log start remaining).2.2,
        can_use_word p.2 p.1 = true := by
  intro fuel
  induction fuel with
  | zero => intro _ _ _ _ _ log _ _ hlog; exact hlog
  | succ fuel ih =>
    intro avail current curIdx res seen log start remaining hlog
    simp only [farIEntry]
    split
    · exact hlog
    · split
      · exact hlog
      · exact farILoop_log (fun av cur ci rs sn lg st rm => ih av cur ci rs sn lg st rm) _
          avail current curIdx _ remaining res seen log hlog

/-! ### Instrumented search: projection back to the plain search -/

theorem projRes_length (l : IRes) : (projRes l).length = l.length :=
  List.length_map _ _

theorem projRes_append (l l' : IRes) : projRes (l ++ l') = projRes l ++ projRes l' :=
  List.map_append _ _ _

theorem farILoop_proj
    {recur : Freq → List Word → SResult → List Word → Nat → Nat → SResult × List Word}
    {recurI : Freq → List Word → List Nat → IRes → List Word → SubLog → Nat → Nat →
      IRes × List Word × SubLog}
    {dict : List Entry} {maxR : Nat}
    (hrec : ∀ av cur curIdx res seen log st rem,
      recur av cur (projRes res) seen st rem =
        (projRes (recurI av cur curIdx res seen log st rem).1,
         (recurI av cur curIdx res seen log st rem).2.1)) :
    ∀ (idxs : List Nat) (avail : Freq) (current : List Word) (curIdx : List Nat)
      (minLen remaining : Nat) (res : IRes) (seen : List Word) (log : SubLog),
      farLoop recur dict avail current minLen remaining maxR (projRes res) seen idxs =
        (projRes (farILoop recurI dict avail current curIdx minLen remaining maxR
            res seen log idxs).1,
         (farILoop recurI dict avail current curIdx minLen remaining maxR
            res seen log idxs).2.1) := by
  intro idxs
  induction idxs with
  | nil => intro _ _ _ _ _ _ _ _; rfl
  | cons i rest ih =>
    intro avail current curIdx minLen remaining res seen log
    simp only [farLoop, farILoop]
    by_cases h1 : remaining < (dict.getD i dfltEntry).2.2
    · rw [if_pos h1, if_pos h1]
      exact ih avail current curIdx minLen remaining res seen log
    · rw [if_neg h1, if_neg h1]
      by_cases h2 : (dict.getD i dfltEntry).2.2 < minLen ∧ maxR / 10 < res.length ∧
          5 < remaining
      · rw [if_pos (by rw [projRes_length]; exact h2), if_pos h2]
      · rw [if_neg (by rw [projRes_length]; exact h2), if_neg h2]
        by_cases h3 : can_use_word (dict.getD i dfltEntry).2.1 avail = false
        · rw [if_pos h3, if_pos h3]
          exact ih avail current curIdx minLen remaining res seen log
        · rw [if_neg h3, if_neg h3]
          by_cases h4 : would_be_redundant current (dict.getD i dfltEntry).1 seen = true
          · rw [if_pos h4, if_pos h4]
            exact ih avail current curIdx minLen remaining res seen log
          · rw [if_neg h4, if_neg h4]
            rw [hrec (subtract_letters avail (dict.getD i dfltEntry).2.1)
              (current ++ [(dict.getD i dfltEntry).1]) (curIdx ++ [i]) res seen
              (log ++ [(avail, (dict.getD i dfltEntry).2.1)]) i
              (remaining - (dict.getD i dfltEntry).2.2)]
            by_cases h5 : maxR ≤
                (recurI (subtract_letters avail (dict.getD i dfltEntry).2.1)
                  (current ++ [(dict.getD i dfltEntry).1]) (curIdx ++ [i]) res seen
                  (log ++ [(avail, (dict.getD i dfltEntry).2.1)]) i
                  (remaining - (dict.getD i dfltEntry).2.2)).1.length
            · rw [if_pos (by rw [projRes_length]; exact h5), if_pos h5]
            · rw [if_neg (by rw [projRes_length]; exact h5), if_neg h5]
              exact ih avail current curIdx minLen remaining _ _ _

theorem farIEntry_proj {dict : List Entry} {maxR : Nat} :
    ∀ (fuel : Nat) (avail : Freq) (current : List Word) (curIdx : List Nat)
      (res : IRes) (seen : List Word) (log : SubLog) (start remaining : Nat),
      farEntry dict maxR fuel avail current (projRes res) seen start remaining =
        (projRes (farIEntry dict maxR fuel avail current curIdx res seen log
            start remaining).1,
         (farIEntry dict maxR fuel avail current curIdx res seen log
            start remaining).2.1) := by
  intro fuel
  induction fuel with
  | zero => intro _ _ _ _ _ _ _ _; rfl
  | succ fuel ih =>
    intro avail current curIdx res seen log start remaining
    simp only [farEntry, farIEntry]
    by_cases h0 : remaining = 0
    · rw [if_pos h0, if_pos h0]
      rw [projRes_append]
      rfl
    · rw [if_neg h0, if_neg h0]
      by_cases hcap : maxR ≤ res.length
      · rw [if_pos (by rw [projRes_length]; exact hcap), if_pos hcap]
      · rw [if_neg (by rw [projRes_length]; exact hcap), if_neg hcap]
        exact farILoop_proj (fun av cur ci rs sn lg st rm => ih av cur ci rs sn lg st rm) _
          avail current curIdx _ remaining res seen log

/-- The ghost instrumentation does not change the program: the plain search
results are the projection of the instrumented ones. -/
theorem searchResults_eq_projI (dictLines : List Word) (target : Word) :
    searchResults dictLines target = projRes (searchI dictLines target).1 := by
  have h := @farIEntry_proj (dictTable dictLines target) 50000
    (count_remaining (compute_frequency target) + 1) (compute_frequency target) [] [] [] [] []
    0 (count_remaining (compute_frequency target))
  rw [show projRes ([] : IRes) = ([] : SResult) from rfl] at h
  unfold searchResults searchI
  simp only []
  rw [h]

/-! ### Instrumented search: ghost indices are a non-decreasing walk -/

theorem searchI_def (dictLines : List Word) (target : Word) :
    searchI dictLines target = farIEntry (dictTable dictLines target) 50000
      (count_remaining (compute_frequency target) + 1) (compute_frequency target)
      [] [] [] [] [] 0 (count_remaining (compute_frequency target)) := by
  unfold searchI
  simp only []

theorem sorted_snoc {xs : List Nat} {k : Nat} (hs : List.Sorted (· ≤ ·) xs)
    (hle : ∀ j ∈ xs, j ≤ k) : List.Sorted (· ≤ ·) (xs ++ [k]) := by
  rw [List.Sorted, List.pairwise_append]
  exact ⟨hs, List.pairwise_singleton _ _,
    fun a ha b hb => (List.mem_singleton.mp hb) ▸ hle a ha⟩

theorem prefix_snoc_eq {xs : List Nat} {a b : Nat} {l : List Nat}
    (ha : (xs ++ [a]) <+: l) (hb : (xs ++ [b]) <+: l) : a = b := by
  have hlen : (xs ++ [a]).length = (xs ++ [b]).length := by simp
  have heq : xs ++ [a] = xs ++ [b] := by
    rcases List.prefix_or_prefix_of_prefix ha hb with h | h
    · exact h.eq_of_length hlen
    · exact (h.eq_of_length hlen.symm).symm
  have := List.append_cancel_left heq
  simpa using this

theorem snoc_pre_weaken {xs : List Nat} {k : Nat} {l : List Nat}
    (h : (xs ++ [k]) <+: l) : xs <+: l :=
  List.IsPrefix.trans ⟨[k], rfl⟩ h

theorem farILoop_idx
    {recurI : Freq → List Word → List Nat → IRes → List Word → SubLog → Nat → Nat →
      IRes × List Word × SubLog}
    {dict : List Entry} {maxR : Nat}
    (hrecur : ∀ (avail : Freq) (current : List Word) (curIdx : List Nat) (res : IRes)
      (seen : List Word) (log : SubLog) (start remaining : Nat),
      current = curIdx.map (fun j => (dict.getD j dfltEntry).1) →
      List.Sorted (· ≤ ·) curIdx →
      (∀ j ∈ curIdx, j < dict.length) →
      (∀ j ∈ curIdx, j ≤ start) →
      (∀ r ∈ res, idxOK dict r) →
      (∀ r ∈ res, ¬ curIdx <+: r.2.2) →
      List.Pairwise (fun a b : IRec => a.2.2 ≠ b.2.2) res →
      (∀ r ∈ (recurI avail current curIdx res seen log start remaining).1, idxOK dict r) ∧
      List.Pairwise (fun a b : IRec => a.2.2 ≠ b.2.2)
        (recurI avail current curIdx res seen log start remaining).1 ∧
      ∃ news, (recurI avail current curIdx res seen log start remaining).1 = res ++ news ∧
        ∀ r ∈ news, curIdx <+: r.2.2) :
    ∀ (idxs : List Nat) (avail : Freq) (current : List Word) (curIdx : List Nat)
      (minLen remaining : Nat) (res : IRes) (seen : List Word) (log : SubLog),
      current = curIdx.map (fun j => (dict.getD j dfltEntry).1) →
      List.Sorted (· ≤ ·) curIdx →
      (∀ j ∈ curIdx, j < dict.length) →
      List.Pairwise (· < ·) idxs →
      (∀ k ∈ idxs, (∀ j ∈ curIdx, j ≤ k) ∧ k < dict.length) →
      (∀ r ∈ res, idxOK dict r) →
      (∀ k ∈ idxs, ∀ r ∈ res, ¬ (curIdx ++ [k]) <+: r.2.2) →
      List.Pairwise (fun a b : IRec => a.2.2 ≠ b.2.2) res →
      (∀ r ∈ (farILoop recurI dict avail current curIdx minLen remaining maxR
          res seen log idxs).1, idxOK dict r) ∧
      List.Pairwise (fun a b : IRec => a.2.2 ≠ b.2.2)
        (farILoop recurI dict avail current curIdx minLen remaining maxR res seen log idxs).1 ∧
      ∃ news, (farILoop recurI dict avail current curIdx minLen remaining maxR
          res seen log idxs).1 = res ++ news ∧
        ∀ r ∈ news, ∃ k ∈ idxs, (curIdx ++ [k]) <+: r.2.2 := by
  intro idxs
  induction idxs with
  | nil =>
    intro _ _ _ _ _ res _ _ _ _ _ _ _ hold _ hpair
    exact ⟨hold, hpair, [], (List.append_nil res).symm, fun r hr => absurd hr (List.not_mem_nil r)⟩
  | cons i rest ih =>
    intro avail current curIdx minLen remaining res seen log hw hsort hbnd hilt hidx hold
      hfree hpair
    have hi : (∀ j ∈ curIdx, j ≤ i) ∧ i < dict.length := hidx i (List.mem_cons_self i rest)
    have hirest : ∀ k ∈ rest, (∀ j ∈ curIdx, j ≤ k) ∧ k < dict.length :=
      fun k hk => hidx k (List.mem_cons_of_mem i hk)
    have hiltrest : List.Pairwise (· < ·) rest := (List.pairwise_cons.mp hilt).2
    have hilti : ∀ k ∈ rest, i < k := (List.pairwise_cons.mp hilt).1
    have hfreerest : ∀ k ∈ rest, ∀ r ∈ res, ¬ (curIdx ++ [k]) <+: r.2.2 :=
      fun k hk => hfree k (List.mem_cons_of_mem i hk)
    have weaken : ∀ (out : IRes),
        (∀ r ∈ out, idxOK dict r) ∧
        List.Pairwise (fun a b : IRec => a.2.2 ≠ b.2.2) out ∧
        (∃ news, out = res ++ news ∧ ∀ r ∈ news, ∃ k ∈ rest, (curIdx ++ [k]) <+: r.2.2) →
        (∀ r ∈ out, idxOK dict r) ∧
        List.Pairwise (fun a b : IRec => a.2.2 ≠ b.2.2) out ∧
        ∃ news, out = res ++ news ∧ ∀ r ∈ news, ∃ k ∈ i :: rest, (curIdx ++ [k]) <+: r.2.2 := by
      intro out ⟨h1, h2, news, heq, hn⟩
      refine ⟨h1, h2, news, heq, fun r hr => ?_⟩
      obtain ⟨k, hk, hp⟩ := hn r hr
      exact ⟨k, List.mem_cons_of_mem i hk, hp⟩
    simp only [farILoop]
    split
    · exact weaken _ (ih avail current curIdx minLen remaining res seen log hw hsort hbnd
        hiltrest hirest hold hfreerest hpair)
    · split
      · exact ⟨hold, hpair, [], (List.append_nil res).symm,
          fun r hr => absurd hr (List.not_mem_nil r)⟩
      · split
        · exact weaken _ (ih avail current curIdx minLen remaining res seen log hw hsort hbnd
            hiltrest hirest hold hfreerest hpair)
        · split
          · exact weaken _ (ih avail current curIdx minLen remaining res seen log hw hsort hbnd
              hiltrest hirest hold hfreerest hpair)
          · have hrec := hrecur (subtract_letters avail (dict.getD i dfltEntry).2.1)
              (current ++ [(dict.getD i dfltEntry).1]) (curIdx ++ [i]) res seen
              (log ++ [(avail, (dict.getD i dfltEntry).2.1)]) i
              (remaining - (dict.getD i dfltEntry).2.2)
              (by rw [hw, List.map_append]; rfl)
              (sorted_snoc hsort hi.1)
              (by
                intro j hj
                rcases List.mem_append.mp hj with hj | hj
                · exact hbnd j hj
                · rcases List.mem_singleton.mp hj with rfl
                  exact hi.2)
              (by
                intro j hj
                rcases List.mem_append.mp hj with hj | hj
                · exact hi.1 j hj
                · rcases List.mem_singleton.mp hj with rfl
                  exact Nat.le_refl _)
              hold
              (hfree i (List.mem_cons_self i rest))
              hpair
            obtain ⟨hA1, hA2, news₁, heq₁, hnews₁⟩ := hrec
            split
            · refine ⟨hA1, hA2, news₁, heq₁, fun r hr => ?_⟩
              exact ⟨i, List.mem_cons_self i rest, hnews₁ r hr⟩
            · have hfreeext' : ∀ k ∈ rest,
                  ∀ r ∈ (recurI (subtract_letters avail (dict.getD i dfltEntry).2.1)
                    (current ++ [(dict.getD i dfltEntry).1]) (curIdx ++ [i]) res seen
                    (log ++ [(avail, (dict.getD i dfltEntry).2.1)]) i
                    (remaining - (dict.getD i dfltEntry).2.2)).1,
                    ¬ (curIdx ++ [k]) <+: r.2.2 := by
                intro k hk r hr hpre
                rw [heq₁] at hr
                rcases List.mem_append.mp hr with hr | hr
                · exact hfreerest k hk r hr hpre
                · have hp₁ := hnews₁ r hr
                  have : i = k := prefix_snoc_eq hp₁ hpre
                  exact absurd (this ▸ hilti k hk) (Nat.lt_irrefl k)
              have hih := ih avail current curIdx minLen remaining
                (recurI (subtract_letters avail (dict.getD i dfltEntry).2.1)
                  (current ++ [(dict.getD i dfltEntry).1]) (curIdx ++ [i]) res seen
                  (log ++ [(avail, (dict.getD i dfltEntry).2.1)]) i
                  (remaining - (dict.getD i dfltEntry).2.2)).1
                (recurI (subtract_letters avail (dict.getD i dfltEntry).2.1)
                  (current ++ [(dict.getD i dfltEntry).1]) (curIdx ++ [i]) res seen
                  (log ++ [(avail, (dict.getD i dfltEntry).2.1)]) i
                  (remaining - (dict.getD i dfltEntry).2.2)).2.1
                (recurI (subtract_letters avail (dict.getD i dfltEntry).2.1)
                  (current ++ [(dict.getD i dfltEntry).1]) (curIdx ++ [i]) res seen
                  (log ++ [(avail, (dict.getD i dfltEntry).2.1)]) i
                  (remaining - (dict.getD i dfltEntry).2.2)).2.2
                hw hsort hbnd hiltrest hirest hA1 hfreeext' hA2
              obtain ⟨hB1, hB2, news₂, heq₂, hnews₂⟩ := hih
              refine ⟨hB1, hB2, news₁ ++ news₂, ?_, ?_⟩
              · rw [heq₂, heq₁, List.append_assoc]
              · intro r hr
                rcases List.mem_append.mp hr with hr | hr
                · exact ⟨i, List.mem_cons_self i rest, hnews₁ r hr⟩
                · obtain ⟨k, hk, hp⟩ := hnews₂ r hr
                  exact ⟨k, List.mem_cons_of_mem i hk, hp⟩

theorem farIEntry_idx {dict : List Entry} {maxR : Nat} :
    ∀ (fuel : Nat) (avail : Freq) (current : List Word) (curIdx : List Nat)
      (res : IRes) (seen : List Word) (log : SubLog) (start remaining : Nat),
      current = curIdx.map (fun j => (dict.getD j dfltEntry).1) →
      List.Sorted (· ≤ ·) curIdx →
      (∀ j ∈ curIdx, j < dict.length) →
      (∀ j ∈ curIdx, j ≤ start) →
      (∀ r ∈ res, idxOK dict r) →
      (∀ r ∈ res, ¬ curIdx <+: r.2.2) →
      List.Pairwise (fun a b : IRec => a.2.2 ≠ b.2.2) res →
      (∀ r ∈ (farIEntry dict maxR fuel avail current curIdx res seen log start remaining).1,
          idxOK dict r) ∧
      List.Pairwise (fun a b : IRec => a.2.2 ≠ b.2.2)
        (farIEntry dict maxR fuel avail current curIdx res seen log start remaining).1 ∧
      ∃ news, (farIEntry dict maxR fuel avail current curIdx res seen log
          start remaining).1 = res ++ news ∧
        ∀ r ∈ news, curIdx <+: r.2.2 := by
  intro fuel
  induction fuel with
  | zero =>
    intro _ _ _ res _ _ _ _ _ _ _ _ hold hfree hpair
    exact ⟨hold, hpair, [], (List.append_nil res).symm, fun r hr => absurd hr (List.not_mem_nil r)⟩
  | succ fuel ih =>
    intro avail current curIdx res seen log start remaining hw hsort hbnd hle hold hfree hpair
    simp only [farIEntry]
    split
    · constructor
      · intro r hr
        have hr' : r ∈ res ++ [(calculate_quality_score current, current, curIdx)] := hr
        rcases List.mem_append.mp hr' with hm | hm
        · exact hold r hm
        · rcases List.mem_singleton.mp hm with rfl
          exact ⟨hsort, hbnd, hw⟩
      · constructor
        · show List.Pairwise _ (res ++ [(calculate_quality_score current, current, curIdx)])
          rw [List.pairwise_append]
          refine ⟨hpair, List.pairwise_singleton _ _, ?_⟩
          intro a ha b hb
          rcases List.mem_singleton.mp hb with rfl
          intro hab
          exact hfree a ha (hab ▸ List.prefix_refl _)
        · exact ⟨[(calculate_quality_score current, current, curIdx)], rfl,
            fun r hr => by
              rcases List.mem_singleton.mp hr with rfl
              exact List.prefix_refl _⟩
    · split
      · exact ⟨hold, hpair, [], (List.append_nil res).symm,
          fun r hr => absurd hr (List.not_mem_nil r)⟩
      · have hloop := @farILoop_idx (farIEntry dict maxR fuel) dict maxR
          (fun av cur ci rs sn lg st rm => ih av cur ci rs sn lg st rm)
          (List.range' start (dict.length - start)) avail current curIdx
          (minWordLen current.length remaining) remaining res seen log hw hsort hbnd
          (List.pairwise_lt_range' start (dict.length - start))
          (by
            intro k hk
            have hb := mem_range'_lt hk
            exact ⟨fun j hj => Nat.le_trans (hle j hj) hb.1, by omega⟩)
          hold
          (by
            intro k _ r hr hpre
            exact hfree r hr (snoc_pre_weaken hpre))
          hpair
        obtain ⟨h1, h2, news, heq, hnews⟩ := hloop
        exact ⟨h1, h2, news, heq,
          fun r hr => by
            obtain ⟨k, _, hp⟩ := hnews r hr
            exact snoc_pre_weaken hp⟩

/-! ### Claim C4: non-decreasing candidate indices, no permuted duplicates -/

/-- C4: the plain search is the projection of the index-instrumented
search, in which every recorded solution's candidate-table indices form a
non-decreasing in-bounds walk spelling out its words (repeats allowed), and
no two recorded solutions are permutations of the same index multiset. -/
theorem claim_C4_nondecreasing_indices (dictLines : List Word) (target : Word) :
    searchResults dictLines target = projRes (searchI dictLines target).1 ∧
    (∀ r ∈ (searchI dictLines target).1,
      List.Sorted (· ≤ ·) r.2.2 ∧
      (∀ j ∈ r.2.2, j < (dictTable dictLines target).length) ∧
      r.2.1 = r.2.2.map fun j => ((dictTable dictLines target).getD j dfltEntry).1) ∧
    List.Pairwise (fun a b : IRec => ¬ List.Perm a.2.2 b.2.2) (searchI dictLines target).1 := by
  have h := @farIEntry_idx (dictTable dictLines target) 50000
    (count_remaining (compute_frequency target) + 1) (compute_frequency target) [] [] [] [] []
    0 (count_remaining (compute_frequency target)) rfl List.sorted_nil
    (fun j hj => absurd hj (List.not_mem_nil j))
    (fun j hj => absurd hj (List.not_mem_nil j))
    (fun r hr => absurd hr (List.not_mem_nil r))
    (fun r hr => absurd hr (List.not_mem_nil r))
    List.Pairwise.nil
  obtain ⟨h1, h2, _⟩ := h
  rw [searchI_def dictLines target]
  refine ⟨?_, fun r hr => h1 r hr, ?_⟩
  · rw [searchResults_eq_projI dictLines target, searchI_def dictLines target]
  · refine List.Pairwise.imp_of_mem ?_ h2
    intro a b ha hb hne hperm
    exact hne (List.eq_of_perm_of_sorted hperm (h1 a ha).1 (h1 b hb).1)

/-- Witness for C4: the single recorded solution of the one-word example
uses index list `[0]`, non-decreasing and spelling its word. -/
theorem claim_C4_witness :
    List.Sorted (· ≤ ·) (((-900 : Int), [['a']], [0]) : IRec).2.2 ∧
    (((-900 : Int), [['a']], [0]) : IRec).2.1 =
      (((-900 : Int), [['a']], [0]) : IRec).2.2.map
        fun j => ((dictTable [['a']] ['a']).getD j dfltEntry).1 :=
  ⟨((claim_C4_nondecreasing_indices [['a']] ['a']).2.1 ((-900 : Int), [['a']], [0])
      (by decide)).1,
   ((claim_C4_nondecreasing_indices [['a']] ['a']).2.1 ((-900 : Int), [['a']], [0])
      (by decide)).2.2⟩

/-! ### Claim C8: subtraction is always guarded -/

/-- C8: every `subtract_letters` call performed by the search (logged by the
instrumented search, whose projection is the plain search) is guarded by a
passing `can_use_word` check, so the per-letter subtraction never
underflows: adding the word frequency back restores the available counts.
(In the ℕ model, counts are non-negative by construction.) -/
theorem claim_C8_guarded_subtraction (dictLines : List Word) (target : Word) :
    searchResults dictLines target = projRes (searchI dictLines target).1 ∧
    ∀ k, k < (searchI dictLines target).2.2.length →
      can_use_word ((searchI dictLines target).2.2.getD k dfltCall).2
        ((searchI dictLines target).2.2.getD k dfltCall).1 = true ∧
      ∀ i, i < 26 →
        ((searchI dictLines target).2.2.getD k dfltCall).2 i ≤
          ((searchI dictLines target).2.2.getD k dfltCall).1 i ∧
        subtract_letters ((searchI dictLines target).2.2.getD k dfltCall).1
            ((searchI dictLines target).2.2.getD k dfltCall).2 i +
          ((searchI dictLines target).2.2.getD k dfltCall).2 i =
          ((searchI dictLines target).2.2.getD k dfltCall).1 i := by
  have hlog : ∀ p ∈ (searchI dictLines target).2.2, can_use_word p.2 p.1 = true := by
    rw [searchI_def dictLines target]
    exact farIEntry_log _ _ _ _ _ _ _ 0 _ (fun p hp => absurd hp (List.not_mem_nil p))
  refine ⟨searchResults_eq_projI dictLines target, fun k hk => ?_⟩
  have hp := hlog ((searchI dictLines target).2.2.getD k dfltCall)
    (@getD_mem_of_lt (Freq × Freq) (searchI dictLines target).2.2 k dfltCall hk)
  exact ⟨hp, fun i hi => ⟨(can_use_word_iff _ _).mp hp i hi,
    subtract_letters_add_back _ _ hp i hi⟩⟩

/-- Witness for C8: the one logged subtraction of the one-word example is
guarded. -/
theorem claim_C8_witness :
    can_use_word ((searchI [['a']] ['a']).2.2.getD 0 dfltCall).2
      ((searchI [['a']] ['a']).2.2.getD 0 dfltCall).1 = true :=
  ((claim_C8_guarded_subtraction [['a']] ['a']).2 0 (by decide)).1

end Anagram
